import Mathlib

/-! # kubectl-cron-logs: a verification development

A shallow embedding of `main.go`: the ownership filter (`isOwnedByCronJob`),
the argument parser (`setFlags`), the log printer (`printLogs`), the colour
hash (`printPodName`) and the writes of concurrent pod streamers, followed by
theorems about them.

Conventions of the embedding:

* a Go `string` that the program treats as bytes (`printLogs`) is a list of
  bytes, a byte being a natural number; NUL is `0` and the newline is `10`;
* a Go `string` that the program ranges over as runes (`printPodName`) is the
  list of runes that `range` yields, each rune being a `Char`;
* command-line arguments are Lean strings (valid UTF-8), so that the first
  byte of an argument is `'-'` exactly when its first character is;
* a run-time panic (nil dereference, index out of range) and the explicit
  process exits (`os.Exit`, `log.Fatal`) are explicit results.
-/

set_option autoImplicit false

namespace CronLogs

/-! ## Ownership filter -/

/-- An entry of `metav1.OwnerReference`: the fields the program reads.
`Controller` is a `*bool` in Go; `none` is the nil pointer. -/
structure OwnerReference where
  UID : String
  Controller : Option Bool
  deriving DecidableEq, Repr

/-- The fields of `batchv1.Job` the program reads. -/
structure Job where
  UID : String
  OwnerReferences : List OwnerReference
  deriving DecidableEq, Repr

/-- The field of `batchv1.CronJob` the program reads. -/
structure CronJob where
  UID : String
  deriving DecidableEq, Repr

/-- The `for ... range job.OwnerReferences` loop of `isOwnedByCronJob`.
The condition is `owner.UID == cronjob.UID && *owner.Controller`: `&&`
short-circuits, so `Controller` is dereferenced only when the UIDs are equal,
and dereferencing nil panics (`none`).  A reference that satisfies the
condition sets `isowned = true` and breaks. -/
def ownerLoop (uid : String) : List OwnerReference → Option Bool
  | [] => some false
  | owner :: rest =>
    if owner.UID = uid then
      match owner.Controller with
      | none => none
      | some true => some true
      | some false => ownerLoop uid rest
    else ownerLoop uid rest

/-- The function `isOwnedByCronJob`: `some b` when it returns `b`, `none` when it panics on a
nil `Controller`. -/
def isOwnedByCronJob (job : Job) (cronjob : CronJob) : Option Bool :=
  ownerLoop cronjob.UID job.OwnerReferences

/-! ## Argument parsing -/

/-- The struct `CmdFlags`. -/
structure CmdFlags where
  Name : String
  Namespace : String
  Container : String
  Follow : Bool
  Showtimestamps : Bool
  deriving DecidableEq, Repr

/-- The zero value `var flags CmdFlags`. -/
def CmdFlags.zero : CmdFlags :=
  { Name := "", Namespace := "", Container := "", Follow := false, Showtimestamps := false }

/-- How a call of `setFlags` ends. -/
inductive FlagsResult where
  /-- The function returns the flags. -/
  | ok (flags : CmdFlags)
  /-- A message is printed and `os.Exit(0)` is called. -/
  | exit0 (msg : String)
  /-- The call `log.Fatal(msg)`: the message is logged and the process exits with status 1. -/
  | fatal (msg : String)
  /-- A run-time panic: index out of range. -/
  | indexPanic
  deriving DecidableEq, Repr

/-- The body of the `for index < len(args)` loop of `setFlags`, on the
arguments from `args[index]` on, followed by the check after the loop.
`-n`/`-c` advance `index` once more and read `args[index][0]`, which panics on
an empty string. -/
def setFlagsLoop (flags : CmdFlags) : List String → FlagsResult
  | [] =>
    if flags.Name = "" then FlagsResult.fatal "cronjob name is required"
    else FlagsResult.ok flags
  | arg :: rest =>
    if arg = "-h" ∨ arg = "--help" then FlagsResult.exit0 "Usage: coming soon"
    else if arg = "-v" ∨ arg = "--version" then FlagsResult.exit0 "Version: 0.0.1"
    else if arg = "-n" ∨ arg = "--namespace" then
      match rest with
      | [] => FlagsResult.fatal "namespace is required with -n or --namespace"
      | value :: rest' =>
        match value.data with
        | [] => FlagsResult.indexPanic
        | c :: _ =>
          if c = '-' then FlagsResult.fatal "namespace is required with -n or --namespace"
          else setFlagsLoop { flags with Namespace := value } rest'
    else if arg = "-c" ∨ arg = "--container" then
      match rest with
      | [] => FlagsResult.fatal "container name is required with -c or --container"
      | value :: rest' =>
        match value.data with
        | [] => FlagsResult.indexPanic
        | c :: _ =>
          if c = '-' then FlagsResult.fatal "container name is required with -c or --container"
          else setFlagsLoop { flags with Container := value } rest'
    else if arg = "-f" ∨ arg = "--follow" then
      setFlagsLoop { flags with Follow := true } rest
    else if arg = "--timestamps" then
      setFlagsLoop { flags with Showtimestamps := true } rest
    else setFlagsLoop { flags with Name := arg } rest

/-- The function `setFlags`: the loop starts at `index := 1`, after the program name. -/
def setFlags (args : List String) : FlagsResult :=
  setFlagsLoop CmdFlags.zero (args.drop 1)

/-- The positional tokens of an argument list (program name removed): the tokens that
are neither a recognised flag nor the value that follows `-n`/`--namespace` or
`-c`/`--container`. -/
def positionals : List String → List String
  | [] => []
  | arg :: rest =>
    if arg = "-h" ∨ arg = "--help" ∨ arg = "-v" ∨ arg = "--version" then positionals rest
    else if arg = "-n" ∨ arg = "--namespace" ∨ arg = "-c" ∨ arg = "--container" then
      match rest with
      | [] => []
      | _ :: rest' => positionals rest'
    else if arg = "-f" ∨ arg = "--follow" ∨ arg = "--timestamps" then positionals rest
    else arg :: positionals rest

/-- An argument list (program name removed) without help or version flag in which every
`-n`/`--namespace` and `-c`/`--container` is followed by a value: a token that is not
empty and does not start with `-`. -/
def wellFormed : List String → Bool
  | [] => true
  | arg :: rest =>
    if arg = "-h" ∨ arg = "--help" ∨ arg = "-v" ∨ arg = "--version" then false
    else if arg = "-n" ∨ arg = "--namespace" ∨ arg = "-c" ∨ arg = "--container" then
      match rest with
      | [] => false
      | value :: rest' =>
        match value.data with
        | [] => false
        | c :: _ => if c = '-' then false else wellFormed rest'
    else wellFormed rest

/-! ## Log printing -/

/-- A byte of a Go string. -/
abbrev Byte := Nat

/-- The call `strings.Split(s, "\n")`: the segments of `s` between newlines (byte 10);
a string with `k` newlines has `k + 1` segments. -/
def split : List Byte → List (List Byte)
  | [] => [[]]
  | b :: rest =>
    if b = 10 then [] :: split rest
    else
      match split rest with
      | [] => [[b]]
      | seg :: segs => (b :: seg) :: segs

/-- The call `strings.Trim(line, "\x00")`: all leading and all trailing NUL bytes removed. -/
def trimNUL (line : List Byte) : List Byte :=
  (line.dropWhile (fun b => b == 0)).rdropWhile (fun b => b == 0)

/-- One call of `logs.Read(buf)`: the bytes stored into `buf` (their number is
`bytesread`, at most `len(buf)`) and the error returned (`err.Error()`, `none` for nil). -/
structure ReadResult where
  data : List Byte
  err : Option String
  deriving DecidableEq, Repr

/-- The length of `buf := make([]byte, 1024)`. -/
def bufSize : Nat := 1024

/-- The contents of `buf` after the read: a fresh zeroed buffer of 1024 bytes with the
bytes read stored at its front (the reader leaves the bytes past `bytesread` as they
were). -/
def fillBuf (data : List Byte) : List Byte :=
  (data ++ List.replicate bufSize 0).take bufSize

/-- The inner loop of `printLogs` on `string(buf)`: the lines handed to the two print
calls, which are the segments of the whole buffer, trimmed, that are not empty. -/
def bufLines (buf : List Byte) : List (List Byte) :=
  ((split buf).map trimNUL).filter (fun line => line ≠ [])

/-- How the `for` loop of `printLogs` is left. -/
inductive LoopEnd where
  /-- The read returned an error whose text is `EOF`: `break`. -/
  | eof
  /-- The read returned another error: `log.Fatal(err)`. -/
  | fatal (msg : String)
  /-- No read result is left: the loop is inside the next `Read`. -/
  | reading
  deriving DecidableEq, Repr

/-- What `printLogs` has done on a sequence of read results. -/
structure Printed where
  /-- The lines printed, in order (each after the prefix written by `printPodName`). -/
  lines : List (List Byte)
  status : LoopEnd
  deriving DecidableEq, Repr

/-- The function `printLogs` on the successive results of `logs.Read`.  The error is
examined first: on an error nothing of that read is printed.  Otherwise, when
`bytesread > 0`, the lines of the buffer are printed. -/
def printLogs : List ReadResult → Printed
  | [] => { lines := [], status := LoopEnd.reading }
  | r :: rest =>
    match r.err with
    | some e => if e = "EOF" then { lines := [], status := LoopEnd.eof }
                else { lines := [], status := LoopEnd.fatal e }
    | none =>
      let lines := if 0 < r.data.length then bufLines (fillBuf r.data) else []
      let p := printLogs rest
      { lines := lines ++ p.lines, status := p.status }

/-- The read results of a stream cut into `chunks`: every chunk is returned by a read
without error, then a read returns no byte and the error `EOF`. -/
def readsOf (chunks : List (List Byte)) : List ReadResult :=
  chunks.map (fun c => { data := c, err := none }) ++ [{ data := [], err := some "EOF" }]

/-- The bytes of an ASCII string literal. -/
def bytes (s : String) : List Byte := s.data.map Char.toNat

/-! ## Colour of a pod name

The values `printPodName` computes in `float64` are non-negative multiples of
one half; such a value `v` is represented by the natural number `2 * v`. -/

/-- Rounding of a non-negative real `h / 2` to `float64` (53-bit significand, round to
nearest, ties to even; the exponent range is not reached), in half units. -/
def round53 (h : Nat) : Nat :=
  if h < 2 ^ 53 then h
  else
    let e := Nat.log2 h - 52
    let q := h / 2 ^ e
    let r := h % 2 ^ e
    let half := 2 ^ (e - 1)
    if r < half then q * 2 ^ e
    else if half < r then (q + 1) * 2 ^ e
    else if q % 2 = 0 then q * 2 ^ e
    else (q + 1) * 2 ^ e

/-- The summand `(math.Pow(float64(char), 2) / 2) + 1` in half units: the square, the
halving (exact, a change of exponent) and the addition of one, each rounded. -/
def charTerm (char : Nat) : Nat :=
  round53 (round53 (2 * (char * char)) / 2 + 2)

/-- The statement `namesum += ...` in half units. -/
def addTerm (namesum : Nat) (char : Char) : Nat :=
  round53 (namesum + charTerm char.toNat)

/-- The value of `namesum` after the loop over the runes of `podname`, in half units. -/
def namesum (podname : List Char) : Nat :=
  podname.foldl addTerm 0

/-- The conversion `int(namesum)`: truncation toward zero; `none` when the value does not
fit a 64-bit `int`, where Go leaves the result to the implementation. -/
def toInt (h : Nat) : Option Nat :=
  if h / 2 < 2 ^ 63 then some (h / 2) else none

/-- The colour code `color := (int(namesum) % 6) + 31`. -/
def color (podname : List Char) : Option Nat :=
  (toInt (namesum podname)).map (fun n => n % 6 + 31)

/-- The function `printPodName`: the text written to standard output. -/
def printPodName (podname : List Char) : Option String :=
  (color podname).map
    (fun c => "\x1b[1;" ++ toString c ++ "m" ++ String.mk podname ++ "\x1b[0;1m ")

/-- Twice the exact sum over the runes `c` of `c ^ 2 / 2 + 1`. -/
def exactSum2 (podname : List Char) : Nat :=
  (podname.map (fun ch => ch.toNat ^ 2 + 2)).sum

/-- A pod name of 7257 runes, each the largest code point U+10FFFF. -/
def longName : List Char := List.replicate 7257 (Char.ofNat 1114111)

/-! ## Concurrent streamers

`processJob` starts one goroutine per pod (`go processPod(...)`), and each runs
`printLogs` on the shared standard output.  A call of `fmt.Printf` is one write; a
line is printed with two calls and no lock is taken anywhere in the program. -/

/-- The two writes of a printed line: the `fmt.Printf` of `printPodName` (coloured pod
name and a blank) and the `fmt.Printf("\033[0;0m%s\n", line)` that follows it in `printLogs`. -/
inductive Part where
  | name
  | text (line : List Byte)
  deriving DecidableEq, Repr

/-- A write to standard output and the pod whose streamer performs it. -/
structure Write where
  pod : List Char
  part : Part
  deriving DecidableEq, Repr

/-- The writes of `printLogs(podname, logs)` in program order: for every printed line the
call `printPodName(podname)`, then the call that prints the line. -/
def podWrites (podname : List Char) (logs : List ReadResult) : List Write :=
  (printLogs logs).lines.flatMap
    (fun line => [{ pod := podname, part := Part.name }, { pod := podname, part := Part.text line }])

/-- The order-preserving merges of two sequences of writes: what two goroutines that run
without synchronisation can leave on standard output. -/
inductive Merge : List Write → List Write → List Write → Prop where
  | nil : Merge [] [] []
  | left (w : Write) (xs ys out : List Write) : Merge xs ys out → Merge (w :: xs) ys (w :: out)
  | right (w : Write) (xs ys out : List Write) : Merge xs ys out → Merge xs (w :: ys) (w :: out)

/-- The order-preserving merges of the writes of several goroutines. -/
inductive MergeAll : List (List Write) → List Write → Prop where
  | nil : MergeAll [] []
  | cons (s : List Write) (ss : List (List Write)) (rest out : List Write) :
      MergeAll ss rest → Merge s rest out → MergeAll (s :: ss) out

/-- Whether every line of an output is one unit: every write of a pod name is followed at
once by a line text of the same pod. -/
def lineAtomic : List Write → Bool
  | [] => true
  | w :: rest =>
    match w.part with
    | Part.text _ => lineAtomic rest
    | Part.name =>
      match rest with
      | [] => false
      | t :: rest' =>
        match t.part with
        | Part.name => false
        | Part.text _ => decide (t.pod = w.pod) && lineAtomic rest'

/-! ## Lemmas on splitting and trimming -/


theorem split_ne_nil (s : List Byte) : split s ≠ [] := by
  cases s with
  | nil => simp [split]
  | cons b rest =>
    unfold split
    split_ifs
    · simp
    · split <;> simp

theorem split_cons_newline (rest : List Byte) : split (10 :: rest) = [] :: split rest := by
  simp [split]

theorem split_cons_other (b : Byte) (rest : List Byte) (hb : b ≠ 10) :
    ∃ seg segs, split rest = seg :: segs ∧ split (b :: rest) = (b :: seg) :: segs := by
  cases h : split rest with
  | nil => exact absurd h (split_ne_nil rest)
  | cons seg segs =>
    refine ⟨seg, segs, rfl, ?_⟩
    rw [split, if_neg hb, h]

/-- Appending bytes without a newline extends the last segment. -/
theorem split_append_noNewline (a z : List Byte) (hz : ∀ b ∈ z, b ≠ 10) :
    ∃ segs last, split a = segs ++ [last] ∧ split (a ++ z) = segs ++ [last ++ z] := by
  induction a with
  | nil =>
    refine ⟨[], [], by simp [split], ?_⟩
    induction z with
    | nil => simp [split]
    | cons b z ih =>
      have hb : b ≠ 10 := hz b (by simp)
      obtain ⟨seg, segs, h1, h2⟩ := split_cons_other b z hb
      have := ih (fun c hc => hz c (by simp [hc]))
      simp at this
      simp
      rw [h2]
      rw [this] at h1
      simp at h1
      obtain ⟨h3, h4⟩ := h1
      subst h3; subst h4; rfl
  | cons b a ih =>
    obtain ⟨segs, last, h1, h2⟩ := ih
    by_cases hb : b = 10
    · subst hb
      refine ⟨[] :: segs, last, ?_, ?_⟩
      · rw [split_cons_newline, h1]; rfl
      · rw [List.cons_append, split_cons_newline, h2]; rfl
    · obtain ⟨seg, sg, e1, e2⟩ := split_cons_other b a hb
      obtain ⟨seg', sg', e1', e2'⟩ := split_cons_other b (a ++ z) hb
      rw [List.cons_append, e2, e2']
      rw [h1] at e1
      rw [h2] at e1'
      cases segs with
      | nil =>
        simp at e1 e1'
        obtain ⟨rfl, rfl⟩ := e1
        obtain ⟨rfl, rfl⟩ := e1'
        exact ⟨[], b :: last, by simp, by simp⟩
      | cons s0 ss =>
        simp at e1 e1'
        obtain ⟨rfl, rfl⟩ := e1
        obtain ⟨rfl, rfl⟩ := e1'
        exact ⟨(b :: s0) :: ss, last, by simp, by simp⟩

theorem split_append_newline (a b : List Byte) :
    split (a ++ 10 :: b) = split a ++ split b := by
  induction a with
  | nil => simp [split]
  | cons x a ih =>
    by_cases hx : x = 10
    · subst hx
      rw [List.cons_append, split_cons_newline, split_cons_newline, ih]; rfl
    · obtain ⟨seg, sg, e1, e2⟩ := split_cons_other x a hx
      obtain ⟨seg', sg', e1', e2'⟩ := split_cons_other x (a ++ 10 :: b) hx
      rw [List.cons_append, e2, e2']
      rw [ih, e1] at e1'
      simp at e1'
      obtain ⟨rfl, rfl⟩ := e1'
      simp

theorem trimNUL_append_zeros (l : List Byte) (k : Nat) :
    trimNUL (l ++ List.replicate k 0) = trimNUL l := by
  have hr : ∀ (m : List Byte) (k : Nat),
      (m ++ List.replicate k 0).rdropWhile (fun b => b == 0) = m.rdropWhile (fun b => b == 0) := by
    intro m k
    induction k with
    | zero => simp
    | succ k ih =>
      rw [List.replicate_succ', ← List.append_assoc, List.rdropWhile_concat_pos _ _ _ (by simp), ih]
  induction l with
  | nil =>
    have : List.dropWhile (fun b => b == 0) (List.replicate k (0 : Byte)) = [] := by
      rw [List.dropWhile_eq_nil_iff]; intro x hx; simp [List.eq_of_mem_replicate hx]
    simp [trimNUL, this]
  | cons x l ih =>
    by_cases hx : x = 0
    · subst hx
      simpa [trimNUL] using ih
    · unfold trimNUL
      rw [List.cons_append, List.dropWhile_cons_of_neg (by simp [hx]),
        List.dropWhile_cons_of_neg (by simp [hx]), ← List.cons_append, hr]

/-! ## Lemmas on the lines of a buffer -/

theorem bufLines_append_zeros (a : List Byte) (k : Nat) :
    bufLines (a ++ List.replicate k 0) = bufLines a := by
  obtain ⟨segs, last, h1, h2⟩ :=
    split_append_noNewline a (List.replicate k 0)
      (fun b hb => by rw [List.eq_of_mem_replicate hb]; decide)
  simp [bufLines, h1, h2, trimNUL_append_zeros]

theorem fillBuf_eq (data : List Byte) (h : data.length ≤ bufSize) :
    fillBuf data = data ++ List.replicate (bufSize - data.length) 0 := by
  unfold fillBuf
  rw [List.take_append_eq_append_take, List.take_of_length_le h, List.take_replicate]
  congr 2
  omega

theorem bufLines_fillBuf (data : List Byte) (h : data.length ≤ bufSize) :
    bufLines (fillBuf data) = bufLines data := by
  rw [fillBuf_eq data h, bufLines_append_zeros]

theorem bufLines_nil : bufLines [] = [] := by
  simp [bufLines, split, trimNUL]

theorem bufLines_append_newline (a b : List Byte) :
    bufLines (a ++ 10 :: b) = bufLines a ++ bufLines b := by
  simp [bufLines, split_append_newline]

theorem bufLines_newline_end (a b : List Byte) (h : a.getLast? = some 10) :
    bufLines (a ++ b) = bufLines a ++ bufLines b := by
  obtain ⟨a0, rfl⟩ : ∃ a0, a = a0 ++ [10] := by
    rcases List.eq_nil_or_concat a with h0 | ⟨a0, x, h1⟩
    · subst h0; simp at h
    · rw [List.concat_eq_append] at h1
      subst h1
      simp at h; subst h; exact ⟨a0, rfl⟩
  have h1 := bufLines_append_newline a0 b
  have h2 := bufLines_append_newline a0 []
  simp only [bufLines_nil, List.append_nil] at h2
  rw [List.append_assoc, List.singleton_append, h1, h2]

theorem printLogs_cons_ok (data : List Byte) (rest : List ReadResult)
    (h : data.length ≤ bufSize) :
    printLogs ({ data := data, err := none } :: rest) =
      { lines := bufLines data ++ (printLogs rest).lines, status := (printLogs rest).status } := by
  rw [printLogs]
  simp only
  by_cases h0 : 0 < data.length
  · rw [if_pos h0, bufLines_fillBuf data h]
  · have : data = [] := by
      cases data with
      | nil => rfl
      | cons x l => simp at h0
    subst this
    simp [bufLines_nil]

theorem printLogs_cons_err (data : List Byte) (e : String) (rest : List ReadResult) :
    printLogs ({ data := data, err := some e } :: rest) =
      if e = "EOF" then { lines := [], status := LoopEnd.eof }
      else { lines := [], status := LoopEnd.fatal e } := by
  rw [printLogs]

theorem trimNUL_eq_nil_iff (l : List Byte) : trimNUL l = [] ↔ ∀ b ∈ l, b = 0 := by
  unfold trimNUL
  rw [List.rdropWhile_eq_nil_iff]
  constructor
  · intro h
    have : List.dropWhile (fun b => b == 0) l = [] := by
      cases hd : List.dropWhile (fun b => b == 0) l with
      | nil => rfl
      | cons x m =>
        have h1 := List.head?_dropWhile_not (fun b : Byte => b == 0) l
        rw [hd] at h1
        have h2 := h x (by rw [hd]; simp)
        simp at h1 h2
        exact absurd h2 h1
    rw [List.dropWhile_eq_nil_iff] at this
    intro b hb
    simpa using this b hb
  · intro h x hx
    have := h x (List.dropWhile_subset _ hx)
    simpa using this

theorem trimNUL_subset (l : List Byte) : trimNUL l ⊆ l := by
  unfold trimNUL
  exact fun x hx => List.dropWhile_subset _ ((List.rdropWhile_prefix _ _).subset hx)

theorem trimNUL_head (l : List Byte) : (trimNUL l).head? ≠ some 0 := by
  unfold trimNUL
  intro h
  have hp := List.rdropWhile_prefix (fun b : Byte => b == 0)
    (List.dropWhile (fun b => b == 0) l)
  obtain ⟨t, ht⟩ := hp
  have h1 := List.head?_dropWhile_not (fun b : Byte => b == 0) l
  rw [← ht] at h1
  cases hr : List.rdropWhile (fun b => b == 0) (List.dropWhile (fun b => b == 0) l) with
  | nil => rw [hr] at h; simp at h
  | cons x m =>
    rw [hr] at h h1
    simp at h h1
    exact h1 h

theorem trimNUL_getLast (l : List Byte) : (trimNUL l).getLast? ≠ some 0 := by
  unfold trimNUL
  intro h
  cases hr : List.rdropWhile (fun b => b == 0) (List.dropWhile (fun b => b == 0) l) with
  | nil => rw [hr] at h; simp at h
  | cons x m =>
    have hne : List.rdropWhile (fun b => b == 0) (List.dropWhile (fun b => b == 0) l) ≠ [] := by
      rw [hr]; simp
    have h1 := List.rdropWhile_last_not (fun b : Byte => b == 0) _ hne
    rw [List.getLast?_eq_getLast _ hne] at h
    simp at h
    rw [h] at h1
    simp at h1

theorem not_newline_mem_split (s : List Byte) : ∀ seg ∈ split s, 10 ∉ seg := by
  induction s with
  | nil => simp [split]
  | cons b rest ih =>
    by_cases hb : b = 10
    · subst hb
      rw [split_cons_newline]
      intro seg hseg
      rcases List.mem_cons.1 hseg with h | h
      · subst h; simp
      · exact ih seg h
    · obtain ⟨seg0, segs, e1, e2⟩ := split_cons_other b rest hb
      rw [e2]
      rw [e1] at ih
      intro seg hseg
      rcases List.mem_cons.1 hseg with h | h
      · subst h
        intro hmem
        rcases List.mem_cons.1 hmem with h' | h'
        · exact hb h'.symm
        · exact ih seg0 (by simp) h'
      · exact ih seg (by simp [h])

/-- Every line of a buffer is a trimmed segment that is not empty. -/
theorem mem_bufLines (buf line : List Byte) (h : line ∈ bufLines buf) :
    line ≠ [] ∧ 10 ∉ line ∧ line.head? ≠ some 0 ∧ line.getLast? ≠ some 0 := by
  simp only [bufLines, List.mem_filter, List.mem_map] at h
  obtain ⟨⟨seg, hseg, rfl⟩, hne⟩ := h
  refine ⟨by simpa using hne, ?_, trimNUL_head seg, trimNUL_getLast seg⟩
  exact fun hm => not_newline_mem_split buf seg hseg (trimNUL_subset seg hm)

theorem bufLines_eq_nil_iff (buf : List Byte) :
    bufLines buf = [] ↔ ∀ b ∈ buf, b = 0 ∨ b = 10 := by
  induction buf with
  | nil => simp [bufLines_nil]
  | cons x rest ih =>
    by_cases hx : x = 10
    · subst hx
      have : bufLines (10 :: rest) = bufLines rest := by
        have := bufLines_append_newline [] rest
        simpa [bufLines_nil] using this
      rw [this, ih]
      simp
    · obtain ⟨seg, segs, e1, e2⟩ := split_cons_other x rest hx
      have hA : bufLines (x :: rest) = [] ↔
          trimNUL (x :: seg) = [] ∧ ∀ s ∈ segs, trimNUL s = [] := by
        simp [bufLines, e2, List.filter_eq_nil_iff]
      have hB : bufLines rest = [] ↔ trimNUL seg = [] ∧ ∀ s ∈ segs, trimNUL s = [] := by
        simp [bufLines, e1, List.filter_eq_nil_iff]
      rw [hA]
      rw [hB] at ih
      rw [trimNUL_eq_nil_iff] at ih ⊢
      constructor
      · rintro ⟨h1, h2⟩
        have hx0 : x = 0 := h1 x (by simp)
        have := ih.1 ⟨fun b hb => h1 b (by simp [hb]), h2⟩
        intro b hb
        rcases List.mem_cons.1 hb with h | h
        · left; rw [h, hx0]
        · exact this b h
      · intro h
        have hx0 : x = 0 := by
          rcases h x (by simp) with h' | h'
          · exact h'
          · exact absurd h' hx
        have := ih.2 (fun b hb => h b (by simp [hb]))
        refine ⟨?_, this.2⟩
        intro b hb
        rcases List.mem_cons.1 hb with h' | h'
        · rw [h', hx0]
        · exact this.1 b h'

theorem printLogs_readsOf (chunks : List (List Byte))
    (hlen : ∀ c ∈ chunks, c.length ≤ bufSize) :
    printLogs (readsOf chunks) =
      { lines := (chunks.map bufLines).flatten, status := LoopEnd.eof } := by
  induction chunks with
  | nil => simp [readsOf, printLogs]
  | cons c rest ih =>
    have h1 := ih (fun d hd => hlen d (by simp [hd]))
    have h2 : readsOf (c :: rest) = { data := c, err := none } :: readsOf rest := by
      simp [readsOf]
    rw [h2, printLogs_cons_ok c _ (hlen c (by simp)), h1]
    simp

theorem bufLines_flatten_aligned (chunks : List (List Byte))
    (h : ∀ c ∈ chunks.dropLast, c.getLast? = some 10) :
    bufLines chunks.flatten = (chunks.map bufLines).flatten := by
  induction chunks with
  | nil => simp [bufLines_nil]
  | cons c rest ih =>
    cases rest with
    | nil => simp
    | cons d rest =>
      have hc : c.getLast? = some 10 := h c (by simp [List.dropLast])
      have hr := ih (fun e he => h e (by simp [List.dropLast] at he ⊢; right; exact he))
      rw [List.flatten_cons, bufLines_newline_end c _ hc, hr]
      simp

/-! ## Lemmas on the colour sum -/

theorem round53_of_lt (h : Nat) (hlt : h < 2 ^ 53) : round53 h = h := by
  unfold round53
  rw [if_pos hlt]

theorem char_toNat_lt (ch : Char) : ch.toNat < 1114112 := by
  have := ch.valid
  simp only [Char.toNat]
  rcases this with h | ⟨_, h⟩
  · have : ch.val.toNat < 55296 := h
    omega
  · exact h

theorem charTerm_eq (c : Nat) (hc : c < 1114112) : charTerm c = c ^ 2 + 2 := by
  have h1 : c * c ≤ 1114111 * 1114111 := Nat.mul_le_mul (by omega) (by omega)
  have h2 : 2 * (c * c) < 2 ^ 53 := by norm_num; omega
  unfold charTerm
  rw [round53_of_lt _ h2, Nat.mul_div_cancel_left _ (by decide : 0 < 2),
    round53_of_lt _ (by norm_num; omega)]
  ring

theorem exactSum2_cons (ch : Char) (l : List Char) :
    exactSum2 (ch :: l) = (ch.toNat ^ 2 + 2) + exactSum2 l := by
  simp [exactSum2]

/-- While the exact sum stays below `2 ^ 52`, no addition rounds. -/
theorem foldl_addTerm_exact (l : List Char) :
    ∀ s : Nat, s + exactSum2 l < 2 ^ 53 → l.foldl addTerm s = s + exactSum2 l := by
  induction l with
  | nil => intro s _; simp [exactSum2]
  | cons ch l ih =>
    intro s hs
    rw [exactSum2_cons] at hs
    rw [List.foldl_cons]
    have h1 : addTerm s ch = s + (ch.toNat ^ 2 + 2) := by
      unfold addTerm
      rw [charTerm_eq _ (char_toNat_lt ch), round53_of_lt _ (by omega)]
    rw [h1, ih _ (by omega), exactSum2_cons]
    omega

theorem namesum_exact (podname : List Char) (h : exactSum2 podname < 2 ^ 53) :
    namesum podname = exactSum2 podname := by
  have := foldl_addTerm_exact podname 0 (by simpa using h)
  simpa [namesum] using this

theorem exactSum2_le (l : List Char) : exactSum2 l ≤ l.length * 1241243320323 := by
  induction l with
  | nil => simp [exactSum2]
  | cons ch l ih =>
    rw [exactSum2_cons, List.length_cons]
    have h1 := char_toNat_lt ch
    have h2 : ch.toNat ^ 2 ≤ 1114111 ^ 2 := Nat.pow_le_pow_left (by omega) 2
    norm_num at h2
    omega

theorem exactSum2_replicate (n : Nat) (ch : Char) :
    exactSum2 (List.replicate n ch) = n * (ch.toNat ^ 2 + 2) := by
  simp [exactSum2]

theorem log2_eq_53 (h : Nat) (h1 : 2 ^ 53 ≤ h) (h2 : h < 2 ^ 54) : Nat.log2 h = 53 := by
  have hne : h ≠ 0 := by
    have : 0 < 2 ^ 53 := by norm_num
    omega
  have a : Nat.log2 h < 54 := (Nat.log2_lt hne).2 h2
  have b : ¬ Nat.log2 h < 53 := fun hb => by
    have := (Nat.log2_lt hne).1 hb
    omega
  omega

/-- Below `2 ^ 53` (in half units `2 ^ 54`) a rounding moves a value by at most one half. -/
theorem round53_le_succ (h : Nat) (hlt : h < 2 ^ 54) : round53 h ≤ h + 1 := by
  by_cases h0 : h < 2 ^ 53
  · rw [round53_of_lt h h0]; omega
  · have hlog : Nat.log2 h = 53 := log2_eq_53 h (by omega) hlt
    unfold round53
    rw [if_neg h0, hlog]
    norm_num
    split_ifs <;> omega

theorem foldl_addTerm_le (l : List Char) :
    ∀ s : Nat, s + exactSum2 l + l.length < 2 ^ 54 →
      l.foldl addTerm s ≤ s + exactSum2 l + l.length := by
  induction l with
  | nil => intro s _; simp [exactSum2]
  | cons ch l ih =>
    intro s hs
    rw [exactSum2_cons, List.length_cons] at hs
    rw [List.foldl_cons]
    have h1 : addTerm s ch ≤ s + (ch.toNat ^ 2 + 2) + 1 := by
      unfold addTerm
      rw [charTerm_eq _ (char_toNat_lt ch)]
      exact round53_le_succ _ (by omega)
    have h2 := ih (addTerm s ch) (by omega)
    rw [exactSum2_cons, List.length_cons]
    omega

/-- For a name of at most 10000 runes the running sum stays below `2 ^ 53`. -/
theorem namesum_lt_of_length (name : List Char) (hn : name.length ≤ 10000) :
    namesum name < 2 * 2 ^ 53 := by
  have h1 := exactSum2_le name
  have h2 : name.length * 1241243320323 ≤ 10000 * 1241243320323 :=
    Nat.mul_le_mul_right _ hn
  have h3 : 10000 * 1241243320323 + 10000 < 2 ^ 54 := by norm_num
  have h4 := foldl_addTerm_le name 0 (by omega)
  have h5 : (2 : Nat) * 2 ^ 53 = 2 ^ 54 := by norm_num
  unfold namesum
  omega

/-! ## Lemmas on the ownership loop and the argument loop -/

theorem ownerLoop_spec (uid : String) (refs : List OwnerReference)
    (hset : ∀ o ∈ refs, o.Controller ≠ none) :
    ∃ b, ownerLoop uid refs = some b ∧
      (b = true ↔ ∃ o ∈ refs, o.UID = uid ∧ o.Controller = some true) := by
  induction refs with
  | nil => exact ⟨false, rfl, by simp⟩
  | cons o rest ih =>
    obtain ⟨b, hb, hiff⟩ := ih (fun x hx => hset x (by simp [hx]))
    have ho := hset o (by simp)
    by_cases hu : o.UID = uid
    · cases hc : o.Controller with
      | none => exact absurd hc ho
      | some c =>
        cases c with
        | true =>
          refine ⟨true, by simp [ownerLoop, hu, hc], ?_⟩
          simp only [true_iff]
          exact ⟨o, by simp, hu, hc⟩
        | false =>
          refine ⟨b, by simp [ownerLoop, hu, hc, hb], ?_⟩
          rw [hiff]
          constructor
          · rintro ⟨x, hx, h1, h2⟩
            exact ⟨x, by simp [hx], h1, h2⟩
          · rintro ⟨x, hx, h1, h2⟩
            rcases List.mem_cons.1 hx with h | h
            · subst h; rw [hc] at h2; simp at h2
            · exact ⟨x, h, h1, h2⟩
    · refine ⟨b, by simp [ownerLoop, hu, hb], ?_⟩
      rw [hiff]
      constructor
      · rintro ⟨x, hx, h1, h2⟩
        exact ⟨x, by simp [hx], h1, h2⟩
      · rintro ⟨x, hx, h1, h2⟩
        rcases List.mem_cons.1 hx with h | h
        · subst h; exact absurd h1 hu
        · exact ⟨x, h, h1, h2⟩

/-- The check after the loop of `setFlags`. -/
theorem setFlagsLoop_nil (flags : CmdFlags) :
    setFlagsLoop flags [] =
      if flags.Name = "" then FlagsResult.fatal "cronjob name is required"
      else FlagsResult.ok flags := by
  rw [setFlagsLoop]

theorem positionals_cons (arg : String) (rest : List String) :
    positionals (arg :: rest) =
      if arg = "-h" ∨ arg = "--help" ∨ arg = "-v" ∨ arg = "--version" then positionals rest
      else if arg = "-n" ∨ arg = "--namespace" ∨ arg = "-c" ∨ arg = "--container" then
        positionals (rest.drop 1)
      else if arg = "-f" ∨ arg = "--follow" ∨ arg = "--timestamps" then positionals rest
      else arg :: positionals rest := by
  cases rest with
  | nil => simp [positionals]
  | cons v r => simp [positionals]

theorem wellFormed_cons (arg : String) (rest : List String) :
    wellFormed (arg :: rest) =
      if arg = "-h" ∨ arg = "--help" ∨ arg = "-v" ∨ arg = "--version" then false
      else if arg = "-n" ∨ arg = "--namespace" ∨ arg = "-c" ∨ arg = "--container" then
        match rest with
        | [] => false
        | value :: rest' =>
          match value.data with
          | [] => false
          | c :: _ => if c = '-' then false else wellFormed rest'
      else wellFormed rest := by
  cases rest with
  | nil => simp [wellFormed]
  | cons v r => simp [wellFormed]

theorem setFlagsLoop_cons (flags : CmdFlags) (arg : String) (rest : List String) :
    setFlagsLoop flags (arg :: rest) =
    if arg = "-h" ∨ arg = "--help" then FlagsResult.exit0 "Usage: coming soon"
    else if arg = "-v" ∨ arg = "--version" then FlagsResult.exit0 "Version: 0.0.1"
    else if arg = "-n" ∨ arg = "--namespace" then
      match rest with
      | [] => FlagsResult.fatal "namespace is required with -n or --namespace"
      | value :: rest' =>
        match value.data with
        | [] => FlagsResult.indexPanic
        | c :: _ =>
          if c = '-' then FlagsResult.fatal "namespace is required with -n or --namespace"
          else setFlagsLoop { flags with Namespace := value } rest'
    else if arg = "-c" ∨ arg = "--container" then
      match rest with
      | [] => FlagsResult.fatal "container name is required with -c or --container"
      | value :: rest' =>
        match value.data with
        | [] => FlagsResult.indexPanic
        | c :: _ =>
          if c = '-' then FlagsResult.fatal "container name is required with -c or --container"
          else setFlagsLoop { flags with Container := value } rest'
    else if arg = "-f" ∨ arg = "--follow" then
      setFlagsLoop { flags with Follow := true } rest
    else if arg = "--timestamps" then
      setFlagsLoop { flags with Showtimestamps := true } rest
    else setFlagsLoop { flags with Name := arg } rest := by
  cases rest with
  | nil => simp [setFlagsLoop]
  | cons v r => simp [setFlagsLoop]


theorem setFlagsLoop_name (n : Nat) :
    ∀ (toks : List String) (flags : CmdFlags), toks.length ≤ n → wellFormed toks = true →
      ∃ f : CmdFlags,
        setFlagsLoop flags toks =
          (if f.Name = "" then FlagsResult.fatal "cronjob name is required"
           else FlagsResult.ok f) ∧
        f.Name = ((positionals toks).getLast?).getD flags.Name := by
  induction n with
  | zero =>
    intro toks flags hlen _
    have : toks = [] := List.length_eq_zero.1 (Nat.le_zero.1 hlen)
    subst this
    exact ⟨flags, setFlagsLoop_nil flags, by simp [positionals]⟩
  | succ n ih =>
    intro toks flags hlen hwf
    cases toks with
    | nil => exact ⟨flags, setFlagsLoop_nil flags, by simp [positionals]⟩
    | cons arg rest =>
      have hrest : rest.length ≤ n := by simpa using hlen
      rw [wellFormed_cons] at hwf
      rw [setFlagsLoop_cons, positionals_cons]
      by_cases h1 : arg = "-h" ∨ arg = "--help" ∨ arg = "-v" ∨ arg = "--version"
      · rw [if_pos h1] at hwf
        exact absurd hwf (by decide)
      · have h1a : ¬ (arg = "-h" ∨ arg = "--help") := fun h => h1 (by tauto)
        have h1b : ¬ (arg = "-v" ∨ arg = "--version") := fun h => h1 (by tauto)
        rw [if_neg h1] at hwf
        rw [if_neg h1a, if_neg h1b, if_neg h1]
        by_cases h2 : arg = "-n" ∨ arg = "--namespace" ∨ arg = "-c" ∨ arg = "--container"
        · rw [if_pos h2] at hwf
          rw [if_pos h2]
          cases rest with
          | nil => exact absurd hwf (by decide)
          | cons value rest' =>
            have hrest' : rest'.length ≤ n := by simp at hrest; omega
            cases hv : value.data with
            | nil => simp only [hv] at hwf; exact absurd hwf (by decide)
            | cons c cs =>
              simp only [hv] at hwf
              by_cases hc : c = '-'
              · rw [if_pos hc] at hwf; exact absurd hwf (by decide)
              · rw [if_neg hc] at hwf
                simp only [hv, if_neg hc, List.drop_succ_cons, List.drop_zero]
                by_cases h3 : arg = "-n" ∨ arg = "--namespace"
                · rw [if_pos h3]
                  exact ih rest' { flags with Namespace := value } hrest' hwf
                · have h4 : arg = "-c" ∨ arg = "--container" := by tauto
                  rw [if_neg h3, if_pos h4]
                  exact ih rest' { flags with Container := value } hrest' hwf
        · have h2a : ¬ (arg = "-n" ∨ arg = "--namespace") := fun h => h2 (by tauto)
          have h2b : ¬ (arg = "-c" ∨ arg = "--container") := fun h => h2 (by tauto)
          rw [if_neg h2] at hwf
          rw [if_neg h2a, if_neg h2b, if_neg h2]
          by_cases h3 : arg = "-f" ∨ arg = "--follow"
          · have h3' : arg = "-f" ∨ arg = "--follow" ∨ arg = "--timestamps" := by tauto
            rw [if_pos h3, if_pos h3']
            exact ih rest { flags with Follow := true } hrest hwf
          · by_cases h4 : arg = "--timestamps"
            · have h3' : arg = "-f" ∨ arg = "--follow" ∨ arg = "--timestamps" := by tauto
              rw [if_neg h3, if_pos h4, if_pos h3']
              exact ih rest { flags with Showtimestamps := true } hrest hwf
            · have h3' : ¬ (arg = "-f" ∨ arg = "--follow" ∨ arg = "--timestamps") := by tauto
              rw [if_neg h3, if_neg h4, if_neg h3']
              obtain ⟨f, hf, hname⟩ := ih rest { flags with Name := arg } hrest hwf
              refine ⟨f, hf, ?_⟩
              rw [hname]
              cases hp : positionals rest with
              | nil => simp
              | cons p ps =>
                rw [List.getLast?_eq_getLast _ (List.cons_ne_nil _ _)]
                simp [List.getLast?_eq_getLast _ (List.cons_ne_nil p ps)]

theorem mem_printLogs_lines (reads : List ReadResult) (line : List Byte)
    (h : line ∈ (printLogs reads).lines) : ∃ buf, line ∈ bufLines buf := by
  induction reads with
  | nil => simp [printLogs] at h
  | cons r rest ih =>
    rw [printLogs] at h
    cases he : r.err with
    | some e =>
      simp only [he] at h
      split_ifs at h <;> simp at h
    | none =>
      simp only [he, List.mem_append] at h
      rcases h with h | h
      · split_ifs at h
        · exact ⟨_, h⟩
        · simp at h
      · exact ih h

/-! ## Ownership filter: claims -/

/-- C2: for a Job whose owner references all carry a set controller flag,
`isOwnedByCronJob` returns a boolean, and that boolean is true if and only if some
owner reference has the CronJob's UID and controller flag true; it is false for
an empty owner-reference list, and false when every reference with the
CronJob's UID has controller flag false. -/
theorem isOwnedByCronJob_iff (job : Job) (cronjob : CronJob)
    (hset : ∀ o ∈ job.OwnerReferences, o.Controller ≠ none) :
    (∃ b, isOwnedByCronJob job cronjob = some b ∧
      (b = true ↔
        ∃ o ∈ job.OwnerReferences, o.UID = cronjob.UID ∧ o.Controller = some true)) ∧
    (job.OwnerReferences = [] → isOwnedByCronJob job cronjob = some false) ∧
    ((∀ o ∈ job.OwnerReferences, o.UID = cronjob.UID → o.Controller = some false) →
      isOwnedByCronJob job cronjob = some false) := by
  have key := ownerLoop_spec cronjob.UID job.OwnerReferences hset
  refine ⟨key, ?_, ?_⟩
  · intro h
    simp [isOwnedByCronJob, h, ownerLoop]
  · intro h
    obtain ⟨b, hb, hiff⟩ := key
    cases b with
    | false => exact hb
    | true =>
      obtain ⟨o, ho, h1, h2⟩ := hiff.1 rfl
      rw [h o ho h1] at h2
      simp at h2

/-- Witness of C2: a Job with a foreign reference and a controlling reference of the CronJob. -/
theorem isOwnedByCronJob_iff_witness :
    (∀ o ∈ [({ UID := "other", Controller := some true } : OwnerReference),
        { UID := "cj", Controller := some false }, { UID := "cj", Controller := some true }],
      o.Controller ≠ none) ∧
    isOwnedByCronJob
      { UID := "job", OwnerReferences := [{ UID := "other", Controller := some true },
        { UID := "cj", Controller := some false }, { UID := "cj", Controller := some true }] }
      { UID := "cj" } = some true := by
  refine ⟨by decide, ?_⟩
  obtain ⟨⟨b, hb, hiff⟩, _⟩ := isOwnedByCronJob_iff
    { UID := "job", OwnerReferences := [{ UID := "other", Controller := some true },
      { UID := "cj", Controller := some false }, { UID := "cj", Controller := some true }] }
    { UID := "cj" } (by decide)
  rw [hb]
  congr 1
  exact hiff.2 ⟨{ UID := "cj", Controller := some true }, by simp, rfl, rfl⟩

/-- C3: on a Job whose only owner reference has the CronJob's UID and a nil controller flag,
`isOwnedByCronJob` dereferences the nil pointer and panics instead of returning false; the same
holds whenever such a reference is reached before a controlling one. -/
theorem isOwnedByCronJob_nil_controller :
    isOwnedByCronJob { UID := "job", OwnerReferences := [{ UID := "cj", Controller := none }] }
      { UID := "cj" } = none ∧
    ∀ (uid : String) (rest : List OwnerReference),
      ownerLoop uid ({ UID := uid, Controller := none } :: rest) = none := by
  refine ⟨by decide, ?_⟩
  intro uid rest
  simp [ownerLoop]

/-! ## Argument parsing: claims -/

/-- C7, as stated, fails: for the arguments `bin alpha beta` the first positional token is
`alpha`, and `setFlags` returns the name `beta`. -/
theorem setFlags_name_not_first :
    (positionals ["alpha", "beta"]).head? = some "alpha" ∧
    setFlags ["bin", "alpha", "beta"] =
      FlagsResult.ok { CmdFlags.zero with Name := "beta" } ∧
    setFlags ["bin", "alpha", "beta"] ≠
      FlagsResult.ok { CmdFlags.zero with Name := "alpha" } := by
  decide

/-- C7, amended: for an argument list without help or version flag in which every
`-n`/`-c` is followed by a value, the name `setFlags` ends with is the last positional
token: when that token is not the empty string `setFlags` returns flags with this name,
and when there is no positional token or the last one is empty it ends with the fatal
message that the cronjob name is required.  For `bin alpha beta` the name is `beta`. -/
theorem setFlags_name_last (args : List String) (hwf : wellFormed (args.drop 1) = true) :
    (∀ name, (positionals (args.drop 1)).getLast? = some name → name ≠ "" →
      ∃ flags, setFlags args = FlagsResult.ok flags ∧ flags.Name = name) ∧
    ((positionals (args.drop 1)).getLast?.getD "" = "" →
      setFlags args = FlagsResult.fatal "cronjob name is required") ∧
    setFlags ["bin", "alpha", "beta"] =
      FlagsResult.ok { CmdFlags.zero with Name := "beta" } := by
  refine and_assoc.1 ⟨?_, by decide⟩
  obtain ⟨f, hf, hname⟩ :=
    setFlagsLoop_name (args.drop 1).length (args.drop 1) CmdFlags.zero (le_refl _) hwf
  have hz : CmdFlags.zero.Name = "" := rfl
  rw [hz] at hname
  constructor
  · intro name hlast hne
    rw [hlast] at hname
    simp only [Option.getD_some] at hname
    refine ⟨f, ?_, hname⟩
    rw [setFlags, hf, if_neg (by rw [hname]; exact hne)]
  · intro hlast
    rw [hlast] at hname
    rw [setFlags, hf, if_pos hname]

/-- Witness of the amended C7: `bin -n ns alpha -f beta` gives the name `beta`. -/
theorem setFlags_name_last_witness :
    wellFormed (["bin", "-n", "ns", "alpha", "-f", "beta"].drop 1) = true ∧
    (positionals (["bin", "-n", "ns", "alpha", "-f", "beta"].drop 1)).getLast? = some "beta" ∧
    ∃ flags, setFlags ["bin", "-n", "ns", "alpha", "-f", "beta"] = FlagsResult.ok flags ∧
      flags.Name = "beta" :=
  ⟨by decide, by decide,
    (setFlags_name_last ["bin", "-n", "ns", "alpha", "-f", "beta"] (by decide)).1 "beta"
      (by decide) (by decide)⟩

/-- C10: on the arguments `bin -n "" job` the call `setFlags` reads the first byte of the
empty value and panics with an index out of range; the same holds for `-c`.  A missing
value, by contrast, is caught by the check of `index` and ends with the fatal message. -/
theorem setFlags_empty_value_panics :
    setFlags ["bin", "-n", "", "job"] = FlagsResult.indexPanic ∧
    setFlags ["bin", "-c", "", "job"] = FlagsResult.indexPanic ∧
    setFlags ["bin", "-n"] = FlagsResult.fatal "namespace is required with -n or --namespace" := by
  decide

/-! ## Log printing: claims -/

/-- C1, as stated, fails: on the chunks `hello wor`, `ld\nfoo\n`, `bar` followed by end of
stream, `printLogs` prints the four lines `hello wor`, `ld`, `foo`, `bar`, not the three lines
`hello world`, `foo`, `bar` of the whole stream. -/
theorem printLogs_splits_line_at_chunk :
    (printLogs (readsOf [bytes "hello wor", bytes "ld\nfoo\n", bytes "bar"])).lines =
      [bytes "hello wor", bytes "ld", bytes "foo", bytes "bar"] ∧
    bufLines ([bytes "hello wor", bytes "ld\nfoo\n", bytes "bar"].flatten) =
      [bytes "hello world", bytes "foo", bytes "bar"] ∧
    (printLogs (readsOf [bytes "hello wor", bytes "ld\nfoo\n", bytes "bar"])).lines ≠
      [bytes "hello world", bytes "foo", bytes "bar"] := by
  have h := printLogs_readsOf [bytes "hello wor", bytes "ld\nfoo\n", bytes "bar"] (by decide)
  rw [h]
  decide

/-- C1, amended: for every stream cut into chunks of at most 1024 bytes, each returned by a
read without error before a read that returns end of stream, `printLogs` ends at the end of
stream having printed, chunk by chunk and in order, the lines of each chunk: its
newline-delimited segments with the NUL bytes at both ends removed, the empty ones left
out; a line split across two chunks is printed as two lines.  When every chunk but the
last ends in a newline, these are exactly the lines of the whole stream.  The chunks
`hello wor`, `ld\nfoo\n`, `bar` give the lines `hello wor`, `ld`, `foo`, `bar`. -/
theorem printLogs_chunkwise (chunks : List (List Byte))
    (hlen : ∀ c ∈ chunks, c.length ≤ bufSize) :
    printLogs (readsOf chunks) =
      { lines := (chunks.map bufLines).flatten, status := LoopEnd.eof } ∧
    ((∀ c ∈ chunks.dropLast, c.getLast? = some 10) →
      (printLogs (readsOf chunks)).lines = bufLines chunks.flatten) ∧
    (printLogs (readsOf [bytes "hello wor", bytes "ld\nfoo\n", bytes "bar"])).lines =
      [bytes "hello wor", bytes "ld", bytes "foo", bytes "bar"] := by
  refine ⟨printLogs_readsOf chunks hlen, ?_, ?_⟩
  · intro h
    rw [printLogs_readsOf chunks hlen, bufLines_flatten_aligned chunks h]
  · rw [printLogs_readsOf _ (by decide)]
    decide

/-- Witness of the amended C1: a stream cut at its line ends. -/
theorem printLogs_chunkwise_witness :
    (∀ c ∈ [bytes "hello world\n", bytes "foo\n", bytes "bar"], c.length ≤ bufSize) ∧
    (∀ c ∈ [bytes "hello world\n", bytes "foo\n", bytes "bar"].dropLast,
      c.getLast? = some 10) ∧
    (printLogs (readsOf [bytes "hello world\n", bytes "foo\n", bytes "bar"])).lines =
      bufLines ([bytes "hello world\n", bytes "foo\n", bytes "bar"].flatten) :=
  ⟨by decide, by decide,
    (printLogs_chunkwise [bytes "hello world\n", bytes "foo\n", bytes "bar"] (by decide)).2.1
      (by decide)⟩

/-- C4, as stated, fails: the chunk `ab\x00\x00c\n` gives the single line `ab\x00\x00c`,
which contains NUL bytes, not `abc`. -/
theorem printLogs_keeps_inner_NUL :
    (printLogs (readsOf [bytes "ab\x00\x00c\n"])).lines = [bytes "ab\x00\x00c"] ∧
    (0 : Byte) ∈ bytes "ab\x00\x00c" ∧
    (printLogs (readsOf [bytes "ab\x00\x00c\n"])).lines ≠ [bytes "abc"] := by
  have h := printLogs_readsOf [bytes "ab\x00\x00c\n"] (by decide)
  rw [h]
  decide

/-- C4, amended: NUL bytes are removed from both ends of every printed line, so no line
printed by `printLogs`, on any sequence of read results, starts or ends with a NUL byte;
NUL bytes inside a line are kept, and the chunk `ab\x00\x00c\n` gives the single line
`ab\x00\x00c`. -/
theorem printLogs_lines_trimmed (reads : List ReadResult) (line : List Byte)
    (h : line ∈ (printLogs reads).lines) :
    line.head? ≠ some 0 ∧ line.getLast? ≠ some 0 ∧
    (printLogs (readsOf [bytes "ab\x00\x00c\n"])).lines = [bytes "ab\x00\x00c"] := by
  obtain ⟨buf, hbuf⟩ := mem_printLogs_lines reads line h
  refine ⟨(mem_bufLines buf line hbuf).2.2.1, (mem_bufLines buf line hbuf).2.2.2, ?_⟩
  rw [printLogs_readsOf _ (by decide)]
  decide

/-- Witness of the amended C4: the line printed for the chunk `\x00ab\x00c\x00\n`. -/
theorem printLogs_lines_trimmed_witness :
    bytes "ab\x00c" ∈ (printLogs (readsOf [bytes "\x00ab\x00c\x00\n"])).lines ∧
    (bytes "ab\x00c").head? ≠ some 0 ∧ (bytes "ab\x00c").getLast? ≠ some 0 :=
  have hm : bytes "ab\x00c" ∈ (printLogs (readsOf [bytes "\x00ab\x00c\x00\n"])).lines := by
    rw [printLogs_readsOf [bytes "\x00ab\x00c\x00\n"] (by decide)]
    decide
  ⟨hm, (printLogs_lines_trimmed _ _ hm).1, (printLogs_lines_trimmed _ _ hm).2.1⟩

/-- C5: when the last read returns the bytes `bar` together with the error `EOF`,
`printLogs` leaves the loop without printing them: the trailing line is dropped.  The
same holds for every data returned together with `EOF`.  When the same bytes are returned
without error and `EOF` comes with the next read, the trailing line is printed. -/
theorem printLogs_drops_data_with_eof :
    printLogs [{ data := bytes "foo\n", err := none }, { data := bytes "bar", err := some "EOF" }]
      = { lines := [bytes "foo"], status := LoopEnd.eof } ∧
    (∀ (data : List Byte) (rest : List ReadResult),
      printLogs ({ data := data, err := some "EOF" } :: rest) =
        { lines := [], status := LoopEnd.eof }) ∧
    printLogs [{ data := bytes "foo\n", err := none }, { data := bytes "bar", err := none },
        { data := [], err := some "EOF" }]
      = { lines := [bytes "foo", bytes "bar"], status := LoopEnd.eof } := by
  refine ⟨?_, ?_, ?_⟩
  · rw [printLogs_cons_ok _ _ (by decide), printLogs_cons_err]
    decide
  · intro data rest
    rw [printLogs_cons_err, if_pos rfl]
  · rw [printLogs_cons_ok _ _ (by decide), printLogs_cons_ok _ _ (by decide), printLogs_cons_err]
    decide

/-- C8, as stated, fails: the chunk of one space, all whitespace, gives one line, the space. -/
theorem printLogs_prints_whitespace_line :
    (printLogs (readsOf [bytes " "])).lines = [bytes " "] ∧
    (printLogs (readsOf [bytes " \t\n"])).lines = [bytes " \t"] := by
  rw [printLogs_readsOf [bytes " "] (by decide), printLogs_readsOf [bytes " \t\n"] (by decide)]
  decide

/-- C8, amended: a chunk of at most 1024 bytes that a read returns without error (the end
of stream coming with a later read) gives zero lines if and only if it consists entirely
of NUL bytes and newlines, alone in the stream or before any further reads; and no line
printed by `printLogs`, on any sequence of read results, is the empty string.  Other
whitespace is not trimmed: the chunk of one space gives the line of one space. -/
theorem printLogs_no_lines_iff (chunk : List Byte) (hlen : chunk.length ≤ bufSize) :
    ((printLogs (readsOf [chunk])).lines = [] ↔ ∀ b ∈ chunk, b = 0 ∨ b = 10) ∧
    (∀ rest : List ReadResult,
      (printLogs ({ data := chunk, err := none } :: rest)).lines = (printLogs rest).lines ↔
        ∀ b ∈ chunk, b = 0 ∨ b = 10) ∧
    (∀ reads : List ReadResult, [] ∉ (printLogs reads).lines) ∧
    (printLogs (readsOf [bytes " "])).lines = [bytes " "] := by
  refine ⟨?_, ?_, ?_, ?_⟩
  · rw [printLogs_readsOf [chunk] (by simpa using hlen)]
    simpa using bufLines_eq_nil_iff chunk
  · intro rest
    rw [printLogs_cons_ok chunk rest hlen, ← bufLines_eq_nil_iff chunk]
    exact List.append_left_eq_self
  · intro reads h
    obtain ⟨buf, hbuf⟩ := mem_printLogs_lines reads [] h
    exact (mem_bufLines buf [] hbuf).1 rfl
  · rw [printLogs_readsOf _ (by decide)]
    decide

/-- Witness of the amended C8: a chunk of NUL bytes and newlines. -/
theorem printLogs_no_lines_iff_witness :
    (bytes "\x00\x00\n\x00\n").length ≤ bufSize ∧
    (printLogs (readsOf [bytes "\x00\x00\n\x00\n"])).lines = [] :=
  ⟨by decide,
    (printLogs_no_lines_iff (bytes "\x00\x00\n\x00\n") (by decide)).1.2 (by decide)⟩

/-! ## Colour of a pod name: claims -/

theorem longName_toNat : (Char.ofNat 1114111).toNat = 1114111 := by decide

theorem longName_split :
    longName = List.replicate 7256 (Char.ofNat 1114111) ++ [Char.ofNat 1114111] := by
  unfold longName
  exact List.replicate_succ' (n := 7256) (a := Char.ofNat 1114111)

theorem round53_tie : round53 9007702775584011 = 9007702775584012 := by
  have hlog : Nat.log2 9007702775584011 = 53 := log2_eq_53 _ (by norm_num) (by norm_num)
  unfold round53
  rw [hlog]
  norm_num

theorem namesum_longName : namesum longName = 9007702775584012 := by
  have hex : exactSum2 (List.replicate 7256 (Char.ofNat 1114111)) = 9006461532263688 := by
    rw [exactSum2_replicate, longName_toNat]; norm_num
  have hpre : namesum (List.replicate 7256 (Char.ofNat 1114111)) = 9006461532263688 := by
    rw [namesum_exact _ (by rw [hex]; norm_num), hex]
  have hterm : charTerm 1114111 = 1241243320323 := by
    rw [charTerm_eq _ (by norm_num)]; norm_num
  unfold namesum at hpre ⊢
  rw [longName_split, List.foldl_append, hpre, List.foldl_cons, List.foldl_nil, addTerm,
    longName_toNat, hterm]
  exact round53_tie

theorem exactSum2_longName : exactSum2 longName = 9007702775584011 := by
  rw [longName, exactSum2_replicate, longName_toNat]; norm_num

/-- C6, as stated, fails: for the name of 7257 runes U+10FFFF (at most 10000 characters,
exact sum and running sum below `2 ^ 53`) the additions round above `2 ^ 52`, and the
colour code printed is 33, while `31 + (T mod 6)` for the exact sum truncated once is 32. -/
theorem color_rounds_above_two_pow_52 :
    longName.length ≤ 10000 ∧
    exactSum2 longName < 2 * 2 ^ 53 ∧
    namesum longName < 2 * 2 ^ 53 ∧
    color longName = some 33 ∧
    31 + (exactSum2 longName / 2) % 6 = 32 := by
  refine ⟨by rw [longName, List.length_replicate]; decide, ?_, ?_, ?_, ?_⟩
  · rw [exactSum2_longName]; norm_num
  · rw [namesum_longName]; norm_num
  · rw [color, namesum_longName]
    simp [toInt]
  · rw [exactSum2_longName]

/-- C6, amended: for every pod name for which the running sum stays below `2 ^ 53` (every
name of at most 10000 characters is one) the colour code `printPodName` prints lies in
the palette 31..36; and when the exact sum `T'` of `c ^ 2 / 2 + 1` over the code points
`c` of the name is below `2 ^ 52` (every name of at most 7256 characters is such) the
code is `31 + (T mod 6)`, where `T` is `T'` truncated to an integer once after the
summation.  The empty name has code 31, and `aa` has sum 9411 and code 34. -/
theorem color_exact (podname : List Char) (h : namesum podname < 2 * 2 ^ 53) :
    (∃ c, color podname = some c ∧ 31 ≤ c ∧ c ≤ 36) ∧
    (exactSum2 podname < 2 ^ 53 →
      color podname = some (31 + (exactSum2 podname / 2) % 6)) ∧
    (∀ name : List Char, name.length ≤ 10000 → namesum name < 2 * 2 ^ 53) ∧
    (∀ name : List Char, name.length ≤ 7256 → exactSum2 name < 2 ^ 53) ∧
    color [] = some 31 ∧
    (namesum ['a', 'a'] = 2 * 9411 ∧ color ['a', 'a'] = some 34) := by
  have hlen : ∀ name : List Char, name.length ≤ 7256 → exactSum2 name < 2 ^ 53 := by
    intro name hn
    have h1 := exactSum2_le name
    have h2 : name.length * 1241243320323 ≤ 7256 * 1241243320323 :=
      Nat.mul_le_mul_right _ hn
    have h3 : 7256 * 1241243320323 < 2 ^ 53 := by norm_num
    omega
  have hcol : ∀ name : List Char, exactSum2 name < 2 ^ 53 →
      color name = some (31 + (exactSum2 name / 2) % 6) := by
    intro name hn
    have h1 : exactSum2 name / 2 < 2 ^ 63 := by
      have : (2 : Nat) ^ 53 ≤ 2 ^ 63 := Nat.pow_le_pow_right (by decide) (by decide)
      have := Nat.div_le_self (exactSum2 name) 2
      omega
    rw [color, namesum_exact name hn, toInt, if_pos h1, Option.map_some', Nat.add_comm]
  have haa : exactSum2 ['a', 'a'] = 18822 := by
    simp [exactSum2]
  have hpal : ∃ c, color podname = some c ∧ 31 ≤ c ∧ c ≤ 36 := by
    have h1 : namesum podname / 2 < 2 ^ 63 := by
      have : (2 : Nat) * 2 ^ 53 ≤ 2 ^ 63 := by norm_num
      have := Nat.div_le_self (namesum podname) 2
      omega
    refine ⟨namesum podname / 2 % 6 + 31, ?_, by omega, by omega⟩
    rw [color, toInt, if_pos h1, Option.map_some']
  refine ⟨hpal, hcol podname, namesum_lt_of_length, hlen, ?_, ?_, ?_⟩
  · rw [hcol [] (hlen [] (by simp))]; simp [exactSum2]
  · rw [namesum_exact _ (hlen _ (by simp)), haa]
  · rw [hcol _ (hlen _ (by simp)), haa]

/-- Witness of the amended C6: the pod name `nightly-28311234-abcde` has colour code 35. -/
theorem color_exact_witness :
    namesum "nightly-28311234-abcde".data < 2 * 2 ^ 53 ∧
    exactSum2 "nightly-28311234-abcde".data < 2 ^ 53 ∧
    color "nightly-28311234-abcde".data = some 35 := by
  have h : namesum "nightly-28311234-abcde".data < 2 * 2 ^ 53 :=
    namesum_lt_of_length _ (by decide)
  refine ⟨h, by decide, ?_⟩
  rw [(color_exact "nightly-28311234-abcde".data h).2.1 (by decide)]
  decide

/-! ## Concurrent streamers: lemmas and claims -/

theorem merge_nil_right (xs : List Write) : Merge xs [] xs := by
  induction xs with
  | nil => exact Merge.nil
  | cons w xs ih => exact Merge.left w xs [] xs ih

theorem merge_sublist_left {xs ys out : List Write} (h : Merge xs ys out) :
    xs.Sublist out := by
  induction h with
  | nil => exact List.Sublist.slnil
  | left w xs ys out _ ih => exact ih.cons₂ w
  | right w xs ys out _ ih => exact ih.cons w

theorem merge_sublist_right {xs ys out : List Write} (h : Merge xs ys out) :
    ys.Sublist out := by
  induction h with
  | nil => exact List.Sublist.slnil
  | left w xs ys out _ ih => exact ih.cons w
  | right w xs ys out _ ih => exact ih.cons₂ w

theorem merge_perm {xs ys out : List Write} (h : Merge xs ys out) :
    out.Perm (xs ++ ys) := by
  induction h with
  | nil => exact List.Perm.refl _
  | left w xs ys out _ ih => exact ih.cons w
  | right w xs ys out _ ih => exact (ih.cons w).trans List.perm_middle.symm

theorem mergeAll_sublist {ss : List (List Write)} {out : List Write} (h : MergeAll ss out) :
    ∀ s ∈ ss, s.Sublist out := by
  induction h with
  | nil => intro s hs; simp at hs
  | cons s ss rest out _ hm ih =>
    intro t ht
    rcases List.mem_cons.1 ht with h1 | h1
    · subst h1; exact merge_sublist_left hm
    · exact (ih t h1).trans (merge_sublist_right hm)

theorem mergeAll_perm {ss : List (List Write)} {out : List Write} (h : MergeAll ss out) :
    out.Perm ss.flatten := by
  induction h with
  | nil => exact List.Perm.refl _
  | cons s ss rest out _ hm ih =>
    rw [List.flatten_cons]
    exact (merge_perm hm).trans (List.Perm.append_left s ih)

theorem lineAtomic_line (podname : List Char) (line : List Byte) (rest : List Write) :
    lineAtomic ({ pod := podname, part := Part.name } ::
      { pod := podname, part := Part.text line } :: rest) = lineAtomic rest := by
  simp [lineAtomic]

theorem lineAtomic_podWrites (podname : List Char) (logs : List ReadResult) :
    lineAtomic (podWrites podname logs) = true := by
  unfold podWrites
  induction (printLogs logs).lines with
  | nil => simp [lineAtomic]
  | cons line lines ih =>
    rw [List.flatMap_cons]
    simpa [lineAtomic_line] using ih

/-- C9, as stated, fails: for the streamers of the pods `a` and `b`, each printing one line,
the schedule name of `a`, name of `b`, text of `a`, text of `b` is an interleaving of their
writes, and in it the name prefix of `a` is followed by output of `b` before the line text
of `a`. -/
theorem lines_interleave :
    MergeAll [podWrites ['a'] (readsOf [bytes "x\n"]), podWrites ['b'] (readsOf [bytes "y\n"])]
      [{ pod := ['a'], part := Part.name }, { pod := ['b'], part := Part.name },
       { pod := ['a'], part := Part.text (bytes "x") },
       { pod := ['b'], part := Part.text (bytes "y") }] ∧
    lineAtomic
      [{ pod := ['a'], part := Part.name }, { pod := ['b'], part := Part.name },
       { pod := ['a'], part := Part.text (bytes "x") },
       { pod := ['b'], part := Part.text (bytes "y") }] = false := by
  have ha : podWrites ['a'] (readsOf [bytes "x\n"]) =
      [{ pod := ['a'], part := Part.name }, { pod := ['a'], part := Part.text (bytes "x") }] := by
    rw [podWrites, printLogs_readsOf _ (by decide)]
    decide
  have hb : podWrites ['b'] (readsOf [bytes "y\n"]) =
      [{ pod := ['b'], part := Part.name }, { pod := ['b'], part := Part.text (bytes "y") }] := by
    rw [podWrites, printLogs_readsOf _ (by decide)]
    decide
  refine ⟨?_, by decide⟩
  rw [ha, hb]
  refine MergeAll.cons _ _ _ _ (MergeAll.cons _ _ _ _ MergeAll.nil (merge_nil_right _)) ?_
  exact Merge.left _ _ _ _ (Merge.right _ _ _ _ (Merge.left _ _ _ _ (Merge.right _ _ _ _ Merge.nil)))

/-- C9, amended: when several pod streamers run concurrently, every line is written with
two writes (the coloured pod name; then the line text and newline) and without a lock: in
every interleaving the writes of each streamer keep their program order, so a pod's
name prefix comes before its line text, and the output holds exactly the writes of all
streamers; a streamer on its own writes whole lines; but a line is not an atomic unit:
two streamers that print a line each have an interleaving in which the name prefix of
the first is followed by the name prefix of the second. -/
theorem streamers_keep_order (pods : List (List Char × List ReadResult)) (out : List Write)
    (h : MergeAll (pods.map (fun p => podWrites p.1 p.2)) out) :
    (∀ p ∈ pods, (podWrites p.1 p.2).Sublist out) ∧
    out.Perm (pods.map (fun p => podWrites p.1 p.2)).flatten ∧
    (∀ p ∈ pods, lineAtomic (podWrites p.1 p.2) = true) ∧
    (∀ (a b : List Char) (la lb : List Byte) (wa wb : List Write),
      ∃ bad, Merge ({ pod := a, part := Part.name } :: { pod := a, part := Part.text la } :: wa)
          ({ pod := b, part := Part.name } :: { pod := b, part := Part.text lb } :: wb) bad ∧
        lineAtomic bad = false) := by
  refine ⟨?_, mergeAll_perm h, fun p _ => lineAtomic_podWrites p.1 p.2, ?_⟩
  · intro p hp
    exact mergeAll_sublist h _ (List.mem_map.2 ⟨p, hp, rfl⟩)
  · intro a b la lb wa wb
    obtain ⟨tail, htail⟩ : ∃ tail,
        Merge ({ pod := a, part := Part.text la } :: wa)
          ({ pod := b, part := Part.text lb } :: wb) tail := by
      have hab : ∀ xs ys : List Write, ∃ o, Merge xs ys o := by
        intro xs ys
        induction xs with
        | nil =>
          induction ys with
          | nil => exact ⟨[], Merge.nil⟩
          | cons y ys ih => obtain ⟨o, ho⟩ := ih; exact ⟨y :: o, Merge.right y [] ys o ho⟩
        | cons x xs ih => obtain ⟨o, ho⟩ := ih; exact ⟨x :: o, Merge.left x xs ys o ho⟩
      exact hab _ _
    refine ⟨{ pod := a, part := Part.name } :: { pod := b, part := Part.name } :: tail,
      Merge.left _ _ _ _ (Merge.right _ _ _ _ htail), ?_⟩
    simp [lineAtomic]

/-- Witness of the amended C9: the streamers of the pods `a` and `b` run one after the other. -/
theorem streamers_keep_order_witness :
    MergeAll ([((['a'] : List Char), readsOf [bytes "x\n"]), (['b'], readsOf [bytes "y\n"])].map
        (fun p => podWrites p.1 p.2))
      (podWrites ['a'] (readsOf [bytes "x\n"]) ++ podWrites ['b'] (readsOf [bytes "y\n"])) ∧
    (podWrites ['b'] (readsOf [bytes "y\n"])).Sublist
      (podWrites ['a'] (readsOf [bytes "x\n"]) ++ podWrites ['b'] (readsOf [bytes "y\n"])) :=
  have hm : ∀ xs ys : List Write, Merge xs ys (xs ++ ys) := by
    intro xs ys
    induction xs with
    | nil =>
      induction ys with
      | nil => exact Merge.nil
      | cons y ys ih => exact Merge.right y [] ys ys ih
    | cons x xs ih => exact Merge.left x xs ys (xs ++ ys) ih
  have h : MergeAll ([((['a'] : List Char), readsOf [bytes "x\n"]),
      (['b'], readsOf [bytes "y\n"])].map (fun p => podWrites p.1 p.2))
      (podWrites ['a'] (readsOf [bytes "x\n"]) ++ podWrites ['b'] (readsOf [bytes "y\n"])) :=
    MergeAll.cons _ _ _ _ (MergeAll.cons _ _ _ _ MergeAll.nil (merge_nil_right _)) (hm _ _)
  ⟨h, (streamers_keep_order _ _ h).1 (['b'], readsOf [bytes "y\n"]) (by simp)⟩

end CronLogs
